import Mathlib

/-!
Shallow embedding of the ROC-analysis core of the dark-matter-hacks repository
(scripts/rocAnalysis.py and the percent-identity computation of
scripts/nicola.py), together with theorems settling the frozen claims.

Modelling conventions:
* Python strings are modelled as lists of characters (PyStr).
* Python floats are modelled as exact rationals; all of the arithmetic the
  claims mention is on values that originate from integer counts, so the
  rational model tracks the intended real-number semantics.
* Python dictionaries with a fixed key set (the readsPerLevel table) are
  modelled as association lists in insertion order.
* Code that can raise an uncaught exception (IndexError from indexing an
  empty list or a too-short split, KeyError from a missing dictionary key,
  ZeroDivisionError from a zero-length alignment) is modelled with Except
  or Option; a caught exception (the try/except ZeroDivisionError around
  fpr and spc) is modelled by the explicit conditional the handler encodes.
-/

namespace RocAnalysis

/-- Python strings are modelled as lists of characters. -/
abbrev PyStr := List Char

/-- Python str.split(sep) for a one-character separator: splits at every
occurrence of the separator, keeping empty fields, never merging. -/
def pySplit (sep : Char) : PyStr → List PyStr
  | [] => [[]]
  | c :: cs =>
    match pySplit sep cs with
    | [] => [[c]]
    | g :: gs => if c = sep then [] :: g :: gs else (c :: g) :: gs

/-- Joins parts with a one-character separator (the inverse image used to
describe inputs of pySplit). -/
def joinSep (sep : Char) : List PyStr → PyStr
  | [] => []
  | [p] => p
  | p :: q :: rest => p ++ sep :: joinSep sep (q :: rest)

/-- Uncaught Python exceptions that the modelled code can raise. -/
inductive PyError where
  | indexError : PyError
  | keyError : PyError
deriving DecidableEq

/-- One high-scoring pair of a BLAST alignment: its bit score and the two
aligned strings (fields hsps[k].bits, .query, .sbjct). -/
structure Hsp where
  bits : ℚ
  query : PyStr
  sbjct : PyStr

/-- One alignment of a BLAST record: its list of high-scoring pairs. -/
structure BlastAlignment where
  hsps : List Hsp

/-- One BLAST record: its query identifier and its alignments. -/
structure BlastRecord where
  query : PyStr
  alignments : List BlastAlignment

/-- The 22 identity-level keys of the readsPerLevel dictionary, in the
insertion order of rocAnalysis.py lines 36-38. -/
def levelKeys : List PyStr :=
  [['1', '0', '0'], ['9', '9'], ['9', '5'], ['9', '0'], ['8', '5'],
   ['8', '0'], ['7', '5'], ['7', '0'], ['6', '5'], ['6', '0'],
   ['5', '5'], ['5', '0'], ['4', '5'], ['4', '0'], ['3', '5'],
   ['3', '0'], ['2', '5'], ['2', '0'], ['1', '5'], ['1', '0'],
   ['5'], ['0']]

/-- The initial readsPerLevel dictionary: every level key mapped to 0. -/
def initTable : List (PyStr × ℕ) := levelKeys.map (fun k => (k, 0))

/-- Dictionary lookup on the association-list model (first matching key). -/
def lookupCount : List (PyStr × ℕ) → PyStr → Option ℕ
  | [], _ => none
  | (k, v) :: rest, key => if k = key then some v else lookupCount rest key

/-- The in-place increment readsPerLevel[level] += 1 on the model. -/
def incrCount (tbl : List (PyStr × ℕ)) (key : PyStr) : List (PyStr × ℕ) :=
  tbl.map (fun p => if p.1 = key then (p.1, p.2 + 1) else p)

/-- The scheme-name extraction of countHits (rocAnalysis.py lines 39-40):
t = blastFile.split('.')[2]; title = t.split('/')[4]. A missing field is
Python's IndexError, modelled as none. -/
def titleOf (blastFile : PyStr) : Option PyStr :=
  match (pySplit '.' blastFile).get? 2 with
  | none => none
  | some t => (pySplit '/' t).get? 4

/-- The per-record body of the countHits loop (rocAnalysis.py lines 42-51):
extract the level (third pipe-delimited field of the query identifier,
raising IndexError if absent, before the try block), skip the record if it
has no alignments (the try/except IndexError around alignments[0]), read
the first alignment's first high-scoring-pair score (alignments present but
hsps empty raises an uncaught IndexError), and increment the level's count
exactly when the score strictly exceeds the cutoff (a missing level key is
an uncaught KeyError). -/
def countHitsStep (cutoff : ℚ) (tbl : List (PyStr × ℕ)) (r : BlastRecord) :
    Except PyError (List (PyStr × ℕ)) :=
  match (pySplit '|' r.query).get? 2 with
  | none => .error .indexError
  | some level =>
    match r.alignments with
    | [] => .ok tbl
    | alignment :: _ =>
      match alignment.hsps with
      | [] => .error .indexError
      | hsp :: _ =>
        if cutoff < hsp.bits then
          match lookupCount tbl level with
          | none => .error .keyError
          | some _ => .ok (incrCount tbl level)
        else .ok tbl

/-- The record loop of countHits: sequential left fold of the per-record
step, aborting at the first uncaught exception. -/
def countHitsFold (cutoff : ℚ) :
    List (PyStr × ℕ) → List BlastRecord → Except PyError (List (PyStr × ℕ))
  | tbl, [] => .ok tbl
  | tbl, r :: rs =>
    match countHitsStep cutoff tbl r with
    | .error e => .error e
    | .ok t => countHitsFold cutoff t rs

/-- countHits (rocAnalysis.py lines 27-53): derives the scheme name from the
file identifier, then folds the per-record step over the record stream
starting from the all-zero table, returning the pair (title, table). -/
def countHits (blastFile : PyStr) (records : List BlastRecord) (cutoff : ℚ) :
    Except PyError (PyStr × List (PyStr × ℕ)) :=
  match titleOf blastFile with
  | none => .error .indexError
  | some title =>
    match countHitsFold cutoff initTable records with
    | .error e => .error e
    | .ok tbl => .ok (title, tbl)

/-- Cumulative true positives at index i: tp = sum(res[:i+1]). -/
def tp (res : List ℕ) (i : ℕ) : ℕ := (res.take (i + 1)).sum

/-- Remaining false positives at index i: fp = sum(res[i+1:]). -/
def fp (res : List ℕ) (i : ℕ) : ℕ := (res.drop (i + 1)).sum

/-- False negatives at index i: fn = 594*(i+1) - tp (an arbitrary-precision
Python int, so it may be negative). -/
def fnOf (res : List ℕ) (i : ℕ) : ℤ := 594 * ((i : ℤ) + 1) - tp res i

/-- True negatives at index i: tn = 594*(22-(i+1)) - fp. -/
def tnOf (res : List ℕ) (i : ℕ) : ℤ := 594 * (22 - ((i : ℤ) + 1)) - fp res i

/-- True positive rate at index i: tpr = float(tp)/float(tp+fn). -/
def tpr (res : List ℕ) (i : ℕ) : ℚ :=
  (tp res i : ℚ) / ((tp res i : ℚ) + (fnOf res i : ℚ))

/-- False positive rate at index i: fpr = float(fp)/float(fp+tn), with the
try/except ZeroDivisionError handler giving 0 when fp+tn == 0. -/
def fpr (res : List ℕ) (i : ℕ) : ℚ :=
  if (fp res i : ℚ) + (tnOf res i : ℚ) = 0 then 0
  else (fp res i : ℚ) / ((fp res i : ℚ) + (tnOf res i : ℚ))

/-- Specificity at index i: spc = float(tn)/float(fp+tn), with the same
ZeroDivisionError handler giving 0 when fp+tn == 0. -/
def spc (res : List ℕ) (i : ℕ) : ℚ :=
  if (fp res i : ℚ) + (tnOf res i : ℚ) = 0 then 0
  else (tnOf res i : ℚ) / ((fp res i : ℚ) + (tnOf res i : ℚ))

/-- The eight parallel vectors calculateFrequencies stores per scheme. -/
structure SchemeFrequencies where
  fprs : List ℚ
  tprs : List ℚ
  spcs : List ℚ
  tps : List ℕ
  tns : List ℤ
  fps : List ℕ
  fns : List ℤ
  raw : List ℕ

/-- The per-scheme body of calculateFrequencies (rocAnalysis.py lines
81-112): one entry per index of the raw vector, appended in loop order. -/
def calculateFrequenciesSingle (res : List ℕ) : SchemeFrequencies :=
  { fprs := (List.range res.length).map (fpr res)
    tprs := (List.range res.length).map (tpr res)
    spcs := (List.range res.length).map (spc res)
    tps := (List.range res.length).map (tp res)
    tns := (List.range res.length).map (tnOf res)
    fps := (List.range res.length).map (fp res)
    fns := (List.range res.length).map (fnOf res)
    raw := res }

/-- The trapezoidal rule scipy.integrate.trapz(y, x): the sum over
consecutive points of (x[k+1]-x[k]) * (y[k]+y[k+1]) / 2. -/
def trapz : List ℚ → List ℚ → ℚ
  | y0 :: y1 :: ys, x0 :: x1 :: xs =>
      (x1 - x0) * ((y0 + y1) / 2) + trapz (y1 :: ys) (x1 :: xs)
  | _, _ => 0

/-- The per-scheme body of areaUnderCurve (rocAnalysis.py lines 186-196)
with the state of the two rate vectors made explicit: the code appends 0.0
and inserts 1.0 at the front of both vectors in place (the shallow
copy.copy of the outer dictionary leaves the inner lists shared with the
caller, so this mutation is caller-visible), then returns the negated
trapezoidal integral. The result is the returned value together with the
post-call states of the fprs and tprs vectors. -/
def aucStep (fprs tprs : List ℚ) : ℚ × List ℚ × List ℚ :=
  let x := 1 :: (fprs ++ [0])
  let y := 1 :: (tprs ++ [0])
  (-(trapz y x), x, y)

/-- Area under the curve computed from a raw count vector: the value
areaUnderCurve returns for a scheme whose table gave the vector res. -/
def aucOfRaw (res : List ℕ) : ℚ :=
  (aucStep (calculateFrequenciesSingle res).fprs
    (calculateFrequenciesSingle res).tprs).1

/-- The perfectly separating raw vector: all 594 positives at the most
stringent level, zero everywhere else. -/
def perfectRaw : List ℕ := 594 :: List.replicate 21 0

/-- A raw vector with a level count exceeding the per-level population. -/
def bigRaw : List ℕ := 10000 :: List.replicate 21 0

end RocAnalysis

namespace Nicola

open RocAnalysis

/-- Count of character-wise identical positions over the truncating zip of
the two aligned strings (nicola.py lines 345-347). -/
def countIdentical (q s : PyStr) : ℕ :=
  ((q.zip s).filter (fun p => p.1 = p.2)).length

/-- computePercentId (nicola.py lines 333-350): takes the first
high-scoring pair of the alignment (IndexError when absent, modelled as
none), counts identical positions over the zip of query and sbjct, and
returns identical / float(len(query)) * 100 (ZeroDivisionError on an empty
query, modelled as none). -/
def computePercentId (alignment : BlastAlignment) : Option ℚ :=
  match alignment.hsps with
  | [] => none
  | hsp :: _ =>
      if hsp.query.length = 0 then none
      else some (((countIdentical hsp.query hsp.sbjct : ℚ) /
        (hsp.query.length : ℚ)) * 100)

end Nicola

namespace RocAnalysis

/-! Helper lemmas. -/

theorem lookupCount_incrCount (tbl : List (PyStr × ℕ)) (key : PyStr) (c : ℕ)
    (h : lookupCount tbl key = some c) :
    lookupCount (incrCount tbl key) key = some (c + 1) := by
  induction tbl with
  | nil => simp [lookupCount] at h
  | cons p rest ih =>
    obtain ⟨k, v⟩ := p
    rw [incrCount, List.map_cons]
    by_cases hk : k = key
    · subst hk
      rw [lookupCount, if_pos rfl] at h
      have hv : v = c := Option.some.inj h
      have hhead : (if ((k, v) : PyStr × ℕ).1 = k then ((k, v).1, (k, v).2 + 1)
          else (k, v)) = (k, v + 1) := by simp
      rw [hhead, lookupCount, if_pos rfl, hv]
    · rw [lookupCount, if_neg hk] at h
      have hhead : (if ((k, v) : PyStr × ℕ).1 = key then ((k, v).1, (k, v).2 + 1)
          else (k, v)) = (k, v) := by simp [hk]
      rw [hhead, lookupCount, if_neg hk]
      exact ih h

theorem incrCount_keys (tbl : List (PyStr × ℕ)) (key : PyStr) :
    (incrCount tbl key).map Prod.fst = tbl.map Prod.fst := by
  rw [incrCount, List.map_map]
  apply List.map_congr_left
  intro p _
  by_cases hk : p.1 = key <;> simp [hk]

theorem countHitsStep_keys (cutoff : ℚ) (tbl t : List (PyStr × ℕ))
    (r : BlastRecord) (h : countHitsStep cutoff tbl r = Except.ok t) :
    t.map Prod.fst = tbl.map Prod.fst := by
  unfold countHitsStep at h
  cases hlv : (pySplit '|' r.query).get? 2 with
  | none =>
    simp only [hlv] at h
    exact Except.noConfusion h
  | some lv =>
    simp only [hlv] at h
    cases hal : r.alignments with
    | nil =>
      simp only [hal] at h
      rw [Except.ok.inj h]
    | cons al arest =>
      simp only [hal] at h
      cases hh : al.hsps with
      | nil =>
        simp only [hh] at h
        exact Except.noConfusion h
      | cons hsp hrest =>
        simp only [hh] at h
        by_cases hcut : cutoff < hsp.bits
        · rw [if_pos hcut] at h
          cases hlk : lookupCount tbl lv with
          | none =>
            simp only [hlk] at h
            exact Except.noConfusion h
          | some c =>
            simp only [hlk] at h
            rw [← Except.ok.inj h, incrCount_keys]
        · rw [if_neg hcut] at h
          rw [Except.ok.inj h]

theorem countHitsFold_keys (cutoff : ℚ) (records : List BlastRecord) :
    ∀ tbl t : List (PyStr × ℕ),
      countHitsFold cutoff tbl records = Except.ok t →
      t.map Prod.fst = tbl.map Prod.fst := by
  induction records with
  | nil =>
    intro tbl t h
    rw [countHitsFold] at h
    rw [Except.ok.inj h]
  | cons r rs ih =>
    intro tbl t h
    rw [countHitsFold] at h
    cases hstep : countHitsStep cutoff tbl r with
    | error e =>
      simp only [hstep] at h
      exact Except.noConfusion h
    | ok t1 =>
      simp only [hstep] at h
      rw [ih t1 t h, countHitsStep_keys cutoff tbl t1 r hstep]

theorem lookupCount_map_zero (l : List PyStr) (k : PyStr) (hk : k ∈ l) :
    lookupCount (l.map (fun key => (key, 0))) k = some 0 := by
  induction l with
  | nil => simp at hk
  | cons a rest ih =>
    rw [List.map_cons, lookupCount]
    by_cases ha : a = k
    · rw [if_pos ha]
    · rw [if_neg ha]
      rcases List.mem_cons.mp hk with h | h
      · exact absurd h.symm ha
      · exact ih h

end RocAnalysis

namespace RocAnalysis

/-- C3: for every scoring scheme, every 22-length raw-count vector of
non-negative integers and every index i below 22, the counts produced by
calculateFrequencies satisfy tp + fn = 594*(i+1) and tn + fp =
594*(22-(i+1)) exactly (population-conservation invariant). -/
theorem calculateFrequencies_conservation (res : List ℕ) (hlen : res.length = 22)
    (i : ℕ) (hi : i < 22) :
    (tp res i : ℤ) + fnOf res i = 594 * ((i : ℤ) + 1) ∧
    tnOf res i + (fp res i : ℤ) = 594 * (22 - ((i : ℤ) + 1)) := by
  constructor
  · unfold fnOf; ring
  · unfold tnOf; ring

/-- Witness for C3 at the concrete input perfectRaw, i = 0. -/
theorem calculateFrequencies_conservation_witness :
    (tp perfectRaw 0 : ℤ) + fnOf perfectRaw 0 = 594 * ((0 : ℤ) + 1) ∧
    tnOf perfectRaw 0 + (fp perfectRaw 0 : ℤ) = 594 * (22 - ((0 : ℤ) + 1)) := by
  exact calculateFrequencies_conservation perfectRaw (by decide) 0 (by decide)

/-- C6: every division in calculateFrequencies is safe: the tpr denominator
tp + fn equals 594*(i+1), which is strictly positive, and when the fpr and
spc denominator fp + tn is zero the ZeroDivisionError handler defines both
rates as 0 instead of failing. -/
theorem frequencies_division_policy (res : List ℕ) (hlen : res.length = 22)
    (i : ℕ) (hi : i < 22) :
    ((tp res i : ℚ) + (fnOf res i : ℚ) = 594 * ((i : ℚ) + 1) ∧
      (0 : ℚ) < 594 * ((i : ℚ) + 1)) ∧
    ((fp res i : ℚ) + (tnOf res i : ℚ) = 0 → fpr res i = 0 ∧ spc res i = 0) := by
  refine ⟨⟨?_, by positivity⟩, ?_⟩
  · unfold fnOf; push_cast; ring
  · intro h
    constructor
    · unfold fpr; rw [if_pos h]
    · unfold spc; rw [if_pos h]

/-- Witness for C6 at the concrete input perfectRaw, i = 21 (the index at
which the degenerate denominator fp + tn = 0 actually occurs). -/
theorem frequencies_division_policy_witness :
    ((tp perfectRaw 21 : ℚ) + (fnOf perfectRaw 21 : ℚ) = 594 * ((21 : ℚ) + 1) ∧
      (0 : ℚ) < 594 * ((21 : ℚ) + 1)) ∧
    ((fp perfectRaw 21 : ℚ) + (tnOf perfectRaw 21 : ℚ) = 0 →
      fpr perfectRaw 21 = 0 ∧ spc perfectRaw 21 = 0) := by
  have h := frequencies_division_policy perfectRaw (by decide) 21 (by decide)
  exact_mod_cast h

/-- C10: a record whose alignments list is non-empty but whose first
alignment has no high-scoring pairs makes countHitsStep raise an uncaught
IndexError instead of skipping the record: the silent-skip policy covers
only the case of a record with no alignments at all. -/
theorem countHitsStep_hsps_indexError (cutoff : ℚ) (tbl : List (PyStr × ℕ))
    (r : BlastRecord) (lv : PyStr) (al : BlastAlignment)
    (arest : List BlastAlignment)
    (hlv : (pySplit '|' r.query).get? 2 = some lv)
    (hal : r.alignments = al :: arest) (hh : al.hsps = []) :
    countHitsStep cutoff tbl r = Except.error PyError.indexError := by
  unfold countHitsStep
  simp only [hlv, hal, hh]

/-- Witness for C10 at a concrete record with one alignment and no
high-scoring pairs. -/
theorem countHitsStep_hsps_indexError_witness :
    countHitsStep 50 initTable ⟨("a|b|99").toList, [⟨[]⟩]⟩ =
      Except.error PyError.indexError := by
  exact countHitsStep_hsps_indexError 50 initTable _ (("99").toList) ⟨[]⟩ []
    (by decide) rfl rfl

/-- C7: the per-record behaviour of countHits for a record whose query
identifier has a third pipe-delimited field lv present in the table: a
record with no alignments is skipped silently (result ok with the table
unchanged); otherwise, with the first alignment's first high-scoring-pair
score, the count at lv is incremented by 1 exactly when the score strictly
exceeds the cutoff, and is left unchanged when the score equals or falls
below the cutoff. -/
theorem countHitsStep_behaviour (cutoff : ℚ) (tbl : List (PyStr × ℕ))
    (r : BlastRecord) (lv : PyStr)
    (hlv : (pySplit '|' r.query).get? 2 = some lv) :
    (r.alignments = [] → countHitsStep cutoff tbl r = Except.ok tbl) ∧
    (∀ (al : BlastAlignment) (arest : List BlastAlignment) (hsp : Hsp)
        (hrest : List Hsp) (c : ℕ),
      r.alignments = al :: arest → al.hsps = hsp :: hrest →
      lookupCount tbl lv = some c →
      countHitsStep cutoff tbl r =
        Except.ok (if cutoff < hsp.bits then incrCount tbl lv else tbl) ∧
      lookupCount (if cutoff < hsp.bits then incrCount tbl lv else tbl) lv =
        some (if cutoff < hsp.bits then c + 1 else c)) := by
  constructor
  · intro hal
    unfold countHitsStep
    simp only [hlv, hal]
  · intro al arest hsp hrest c hal hh hc
    unfold countHitsStep
    simp only [hlv, hal, hh]
    by_cases hcut : cutoff < hsp.bits
    · rw [if_pos hcut, if_pos hcut, if_pos hcut, hc]
      exact ⟨rfl, lookupCount_incrCount tbl lv c hc⟩
    · rw [if_neg hcut, if_neg hcut, if_neg hcut]
      exact ⟨rfl, hc⟩

/-- Witness for C7 at a concrete record whose score 60 exceeds the cutoff
50, starting from the all-zero table. -/
theorem countHitsStep_behaviour_witness :
    countHitsStep 50 initTable ⟨("a|b|99").toList, [⟨[⟨60, [], []⟩]⟩]⟩ =
      Except.ok (if (50 : ℚ) < 60 then incrCount initTable (("99").toList)
        else initTable) ∧
    lookupCount (if (50 : ℚ) < 60 then incrCount initTable (("99").toList)
        else initTable) (("99").toList) =
      some (if (50 : ℚ) < 60 then 0 + 1 else 0) := by
  exact (countHitsStep_behaviour 50 initTable
      ⟨("a|b|99").toList, [⟨[⟨60, [], []⟩]⟩]⟩ (("99").toList) (by decide)).2
    ⟨[⟨60, [], []⟩]⟩ [] ⟨60, [], []⟩ [] 0 rfl rfl (by decide)

end RocAnalysis

namespace RocAnalysis

/-- C8: whenever countHits returns a table, that table has exactly the 22
fixed identity levels as its keys, in order (its counts are natural
numbers, hence non-negative); and on zero records the returned table is the
initial one, mapping every one of the 22 levels to 0. -/
theorem countHits_levels (bf : PyStr) (records : List BlastRecord)
    (cutoff : ℚ) (title : PyStr) (tbl : List (PyStr × ℕ))
    (h : countHits bf records cutoff = Except.ok (title, tbl)) :
    tbl.map Prod.fst = levelKeys ∧
    (records = [] →
      tbl = initTable ∧ ∀ k ∈ levelKeys, lookupCount tbl k = some 0) := by
  unfold countHits at h
  cases ht : titleOf bf with
  | none =>
    simp only [ht] at h
    exact Except.noConfusion h
  | some t =>
    simp only [ht] at h
    cases hf : countHitsFold cutoff initTable records with
    | error e =>
      simp only [hf] at h
      exact Except.noConfusion h
    | ok t2 =>
      simp only [hf] at h
      have htbl : t2 = tbl := congrArg Prod.snd (Except.ok.inj h)
      subst htbl
      constructor
      · rw [countHitsFold_keys cutoff records initTable t2 hf]
        rfl
      · intro hrec
        subst hrec
        rw [countHitsFold] at hf
        have hinit : initTable = t2 := Except.ok.inj hf
        constructor
        · exact hinit.symm
        · intro k hk
          rw [← hinit, initTable]
          exact lookupCount_map_zero levelKeys k hk

/-- Witness for C8 at a concrete file identifier, zero records, cutoff 50. -/
theorem countHits_levels_witness :
    (initTable.map Prod.fst = levelKeys ∧
      (([] : List BlastRecord) = [] →
        initTable = initTable ∧
        ∀ k ∈ levelKeys, lookupCount initTable k = some 0)) := by
  exact countHits_levels (("a.b.x/y/z/w/SCHEME/v.json").toList) [] 50
    (("SCHEME").toList) initTable rfl

end RocAnalysis

namespace Nicola

open RocAnalysis

/-- C9: for every alignment whose first high-scoring pair carries
equal-length query and subject strings of length L with exactly k
character-wise identical positions, computePercentId returns exactly
100*k/L. -/
theorem computePercentId_exact (al : BlastAlignment) (b : ℚ) (q s : PyStr)
    (more : List Hsp) (hal : al.hsps = Hsp.mk b q s :: more)
    (hlen : s.length = q.length) (hpos : 0 < q.length) (k L : ℕ)
    (hk : k = countIdentical q s) (hL : L = q.length) :
    computePercentId al = some ((100 * k : ℚ) / (L : ℚ)) := by
  subst hk; subst hL
  unfold computePercentId
  simp only [hal]
  rw [if_neg (Nat.pos_iff_ne_zero.mp hpos)]
  congr 1
  ring

/-- Witness for C9 at the concrete one-hsp alignment with query AB and
subject AC: one identical position out of two, so exactly 50 percent. -/
theorem computePercentId_exact_witness :
    computePercentId ⟨[Hsp.mk 0 (("AB").toList) (("AC").toList)]⟩ =
      some ((100 * (1 : ℕ) : ℚ) / ((2 : ℕ) : ℚ)) := by
  exact computePercentId_exact ⟨[Hsp.mk 0 (("AB").toList) (("AC").toList)]⟩ 0
    (("AB").toList) (("AC").toList) [] rfl (by decide) (by decide) 1 2
    (by decide) (by decide)

end Nicola

namespace RocAnalysis

/-- C1 counterexample: for the raw vector perfectRaw the tpr sequence of
calculateFrequencies strictly decreases from index 0 to index 1 (1 versus
1/2), so it is not monotonically non-decreasing as the claim states. -/
theorem tprs_not_monotone_cex :
    (calculateFrequenciesSingle perfectRaw).tprs.get? 0 = some 1 ∧
    (calculateFrequenciesSingle perfectRaw).tprs.get? 1 = some (1 / 2) ∧
    ¬ ((1 : ℚ) ≤ 1 / 2) := by
  refine ⟨?_, ?_, by norm_num⟩
  · simp only [calculateFrequenciesSingle]
    rw [List.get?_map, show perfectRaw.length = 22 from rfl,
      List.get?_range (by norm_num)]
    rw [Option.map_some']
    congr 1
    rw [tpr, show tp perfectRaw 0 = 594 from rfl,
      show fnOf perfectRaw 0 = 0 from rfl]
    norm_num
  · simp only [calculateFrequenciesSingle]
    rw [List.get?_map, show perfectRaw.length = 22 from rfl,
      List.get?_range (by norm_num)]
    rw [Option.map_some']
    congr 1
    rw [tpr, show tp perfectRaw 1 = 594 from rfl,
      show fnOf perfectRaw 1 = 594 from rfl]
    norm_num

/-- C1 amended: for every 22-length raw-count vector of non-negative
integers, the cumulative true-positive counts tp produced by
calculateFrequencies are monotonically non-decreasing in the index
(cumulative positives never shrink); the tpr sequence itself is not
monotone in general. -/
theorem tps_monotone (res : List ℕ) (hlen : res.length = 22) (i j : ℕ)
    (hij : i ≤ j) (hj : j < 22) : tp res i ≤ tp res j := by
  have h1 : res.take (i + 1) = (res.take (j + 1)).take (i + 1) := by
    rw [List.take_take, min_eq_left (by omega)]
  rw [tp, tp, h1]
  calc ((res.take (j + 1)).take (i + 1)).sum
      ≤ ((res.take (j + 1)).take (i + 1)).sum
        + ((res.take (j + 1)).drop (i + 1)).sum := Nat.le_add_right _ _
    _ = (res.take (j + 1)).sum := by
        rw [← List.sum_append, List.take_append_drop]

/-- Witness for the amended C1 at perfectRaw, indices 0 and 1. -/
theorem tps_monotone_witness : tp perfectRaw 0 ≤ tp perfectRaw 1 := by
  exact tps_monotone perfectRaw (by decide) 0 1 (by decide) (by decide)

/-- Appending a duplicated terminal point to both coordinate lists adds a
zero-width trapezoid and leaves the trapezoidal integral unchanged. -/
theorem trapz_append_pair (ys : List ℚ) : ∀ (xs : List ℚ) (a b : ℚ),
    ys.length = xs.length →
    trapz (ys ++ [a, a]) (xs ++ [b, b]) = trapz (ys ++ [a]) (xs ++ [b]) := by
  induction ys with
  | nil =>
    intro xs a b hlen
    have hxs : xs = [] := List.length_eq_zero.mp hlen.symm
    subst hxs
    simp only [List.nil_append]
    show (b - b) * ((a + a) / 2) + trapz [a] [b] = trapz [a] [b]
    ring_nf
  | cons y0 ys0 ih =>
    intro xs a b hlen
    cases xs with
    | nil => simp at hlen
    | cons x0 xs0 =>
      cases ys0 with
      | nil =>
        have hxs0 : xs0 = [] := by simpa using hlen
        subst hxs0
        simp only [List.cons_append, List.nil_append]
        show (b - x0) * ((y0 + a) / 2) + trapz [a, a] [b, b]
          = (b - x0) * ((y0 + a) / 2) + trapz [a] [b]
        congr 1
        show (b - b) * ((a + a) / 2) + trapz [a] [b] = trapz [a] [b]
        ring_nf
      | cons y1 ys1 =>
        cases xs0 with
        | nil => simp at hlen
        | cons x1 xs1 =>
          have hlen1 : (y1 :: ys1).length = (x1 :: xs1).length := by
            simpa using hlen
          have hrec := ih (x1 :: xs1) a b hlen1
          simp only [List.cons_append] at hrec ⊢
          show (x1 - x0) * ((y0 + y1) / 2)
              + trapz (y1 :: (ys1 ++ [a, a])) (x1 :: (xs1 ++ [b, b]))
            = (x1 - x0) * ((y0 + y1) / 2)
              + trapz (y1 :: (ys1 ++ [a])) (x1 :: (xs1 ++ [b]))
          exact congrArg _ hrec

/-- C2 counterexample: at the concrete frequencies of perfectRaw, the fprs
vector visible after the areaUnderCurve call differs from the one passed
in (the call prepends 1.0 and appends 0.0 in place through the shallow
copy), so areaUnderCurve does mutate the caller-visible vectors. -/
theorem aucStep_mutates_fprs :
    (aucStep (calculateFrequenciesSingle perfectRaw).fprs
      (calculateFrequenciesSingle perfectRaw).tprs).2.1 ≠
    (calculateFrequenciesSingle perfectRaw).fprs := by
  intro h
  have hl := congrArg List.length h
  simp only [aucStep, List.length_cons, List.length_append,
    List.length_singleton] at hl
  omega

/-- C2 amended: areaUnderCurve does mutate the fprs and tprs vectors
visible to the caller (it prepends 1.0 and appends 0.0 to each in place),
but a second, independent call on the same mutated frequencies still
returns the same value as the first call, because the duplicated endpoint
coordinates contribute only zero-width trapezoids. -/
theorem aucStep_second_call_eq (fprs tprs : List ℚ)
    (hlen : fprs.length = tprs.length) :
    (aucStep (aucStep fprs tprs).2.1 (aucStep fprs tprs).2.2).1
      = (aucStep fprs tprs).1 := by
  simp only [aucStep]
  congr 1
  show trapz (1 :: ((1 :: (tprs ++ [0])) ++ [0]))
      (1 :: ((1 :: (fprs ++ [0])) ++ [0]))
    = trapz (1 :: (tprs ++ [0])) (1 :: (fprs ++ [0]))
  simp only [List.cons_append, List.append_assoc, List.singleton_append]
  show (1 - 1) * ((1 + 1) / 2)
      + trapz (1 :: (tprs ++ [0, 0])) (1 :: (fprs ++ [0, 0]))
    = trapz (1 :: (tprs ++ [0])) (1 :: (fprs ++ [0]))
  have hrec := trapz_append_pair (1 :: tprs) (1 :: fprs) 0 0
    (by simp [hlen])
  simp only [List.cons_append] at hrec
  rw [hrec]
  ring_nf

/-- Witness for the amended C2 at the concrete one-point curve. -/
theorem aucStep_second_call_eq_witness :
    (aucStep (aucStep [(0 : ℚ)] [(1 : ℚ)]).2.1 (aucStep [(0 : ℚ)] [(1 : ℚ)]).2.2).1
      = (aucStep [(0 : ℚ)] [(1 : ℚ)]).1 := by
  exact aucStep_second_call_eq [0] [1] rfl

end RocAnalysis

namespace RocAnalysis

/-- For a raw vector with hits only at the most stringent level, every
cumulative false-positive count is zero. -/
theorem fp_head_only (a : ℕ) (i : ℕ) : fp (a :: List.replicate 21 0) i = 0 := by
  rw [fp, List.drop_succ_cons]
  apply List.sum_eq_zero
  intro x hx
  exact List.eq_of_mem_replicate (List.drop_subset _ _ hx)

/-- For a raw vector with hits only at the most stringent level, every
false positive rate is zero (by division or by the degenerate policy). -/
theorem fpr_head_only (a : ℕ) (i : ℕ) : fpr (a :: List.replicate 21 0) i = 0 := by
  rw [fpr, fp_head_only]
  split
  · rfl
  · simp

/-- For a raw vector with hits only at the most stringent level, the tpr at
index 0 is the head count divided by 594. -/
theorem tpr_head_zero (a : ℕ) :
    tpr (a :: List.replicate 21 0) 0 = (a : ℚ) / 594 := by
  have htp : tp (a :: List.replicate 21 0) 0 = a := by
    rw [tp]
    simp
  have hfn : fnOf (a :: List.replicate 21 0) 0 = 594 - (a : ℤ) := by
    rw [fnOf, htp]
    push_cast
    ring
  rw [tpr, htp, hfn]
  have hden : (a : ℚ) + ((594 - (a : ℤ) : ℤ) : ℚ) = 594 := by
    push_cast
    ring
  rw [hden]

/-- The trapezoidal integral along a constant x coordinate vanishes: every
trapezoid has zero width. -/
theorem trapz_const_x (c : ℚ) (n : ℕ) (ys : List ℚ) :
    trapz ys (List.replicate n c) = 0 := by
  induction n generalizing ys with
  | zero => rcases ys with _ | ⟨y0, _ | ⟨y1, ys0⟩⟩ <;> rfl
  | succ n ih =>
    rcases ys with _ | ⟨y0, _ | ⟨y1, ys0⟩⟩
    · rfl
    · rfl
    · cases n with
      | zero => rfl
      | succ m =>
        rw [List.replicate_succ, List.replicate_succ]
        show (c - c) * ((y0 + y1) / 2)
            + trapz (y1 :: ys0) (c :: List.replicate m c) = 0
        have h2 := ih (y1 :: ys0)
        rw [List.replicate_succ] at h2
        rw [h2]
        ring

/-- For a raw vector with hits only at the most stringent level, the fprs
vector of calculateFrequencies is identically zero. -/
theorem fprs_head_only (a : ℕ) :
    (calculateFrequenciesSingle (a :: List.replicate 21 0)).fprs
      = List.replicate 22 0 := by
  simp only [calculateFrequenciesSingle]
  rw [show (a :: List.replicate 21 0).length = 22 by simp]
  apply List.eq_replicate.mpr
  refine ⟨by simp, ?_⟩
  intro b hb
  rcases List.mem_map.mp hb with ⟨i, _, rfl⟩
  exact fpr_head_only a i

/-- For a raw vector with hits only at the most stringent level, the tprs
vector of calculateFrequencies starts with the index-0 tpr. -/
theorem tprs_head_only (a : ℕ) :
    (calculateFrequenciesSingle (a :: List.replicate 21 0)).tprs
      = tpr (a :: List.replicate 21 0) 0
        :: (List.range 21).map (tpr (a :: List.replicate 21 0) ∘ Nat.succ) := by
  simp only [calculateFrequenciesSingle]
  rw [show (a :: List.replicate 21 0).length = 22 by simp]
  rw [List.range_succ_eq_map, List.map_cons, List.map_map]

/-- Closed form of areaUnderCurve on a raw vector with hits only at the
most stringent level: all fpr are 0, so only the first trapezoid (from the
prepended point (1,1) down to x = 0) has non-zero width, and the area is
(1 + tpr[0]) / 2 = (1 + a/594) / 2. -/
theorem auc_head_only (a : ℕ) :
    aucOfRaw (a :: List.replicate 21 0) = (1 + (a : ℚ) / 594) / 2 := by
  rw [aucOfRaw]
  simp only [aucStep]
  rw [fprs_head_only, tprs_head_only]
  rw [show (List.replicate 22 (0 : ℚ)) ++ [0] = List.replicate 23 0 from rfl]
  rw [List.cons_append]
  show -((0 - 1) * ((1 + tpr (a :: List.replicate 21 0) 0) / 2)
      + trapz
        (tpr (a :: List.replicate 21 0) 0
          :: ((List.range 21).map (tpr (a :: List.replicate 21 0) ∘ Nat.succ)
            ++ [0]))
        (0 :: List.replicate 22 0))
    = (1 + (a : ℚ) / 594) / 2
  rw [show (0 : ℚ) :: List.replicate 22 0 = List.replicate 23 0 from rfl]
  rw [trapz_const_x, tpr_head_zero]
  ring

/-- C5 counterexample: the raw-count vector bigRaw, whose head count 10000
is a non-negative integer exceeding the per-level population 594, makes
areaUnderCurve return 5297/594, which is greater than 1, so the returned
value is not always in the interval from 0 to 1. -/
theorem aucOfRaw_exceeds_one : 1 < aucOfRaw bigRaw := by
  rw [show bigRaw = 10000 :: List.replicate 21 0 from rfl, auc_head_only]
  norm_num

/-- C5 amended: areaUnderCurve computes the negated trapezoidal integral of
tpr over fpr after prepending the point (1,1) and appending the point
(0,0); for the perfectly separating scheme perfectRaw the fpr vector is
identically 0, the first tpr is 1.0, and the returned area is exactly 1.
(The returned value lies outside the interval from 0 to 1 for raw vectors
whose counts exceed the per-level population 594, as bigRaw shows.) -/
theorem auc_perfect_scheme :
    (calculateFrequenciesSingle perfectRaw).fprs = List.replicate 22 0 ∧
    (calculateFrequenciesSingle perfectRaw).tprs.get? 0 = some 1 ∧
    aucOfRaw perfectRaw = 1 := by
  have hperf : perfectRaw = 594 :: List.replicate 21 0 := rfl
  refine ⟨?_, ?_, ?_⟩
  · rw [hperf]
    exact fprs_head_only 594
  · rw [hperf, tprs_head_only, List.get?_cons_zero, tpr_head_zero]
    norm_num
  · rw [hperf, auc_head_only]
    norm_num

end RocAnalysis

namespace RocAnalysis

/-- pySplit always returns at least one field. -/
theorem pySplit_ne_nil (sep : Char) (xs : PyStr) : pySplit sep xs ≠ [] := by
  cases xs with
  | nil => simp [pySplit]
  | cons c cs =>
    rw [pySplit]
    cases h : pySplit sep cs with
    | nil => simp
    | cons g gs => by_cases hc : c = sep <;> simp [hc]

/-- Splitting a separator-free string yields that single field. -/
theorem pySplit_no_sep (sep : Char) (p : PyStr) (hp : sep ∉ p) :
    pySplit sep p = [p] := by
  induction p with
  | nil => rfl
  | cons c cs ih =>
    have hc : c ≠ sep := fun h => hp (h ▸ List.mem_cons_self c cs)
    have hcs : sep ∉ cs := fun h => hp (List.mem_cons_of_mem c h)
    rw [pySplit, ih hcs]
    simp [hc]

/-- Splitting a string that starts with a separator-free field followed by
the separator peels off exactly that field. -/
theorem pySplit_sep_append (sep : Char) (p t : PyStr) (hp : sep ∉ p) :
    pySplit sep (p ++ sep :: t) = p :: pySplit sep t := by
  induction p with
  | nil =>
    simp only [List.nil_append]
    rw [pySplit]
    cases h : pySplit sep t with
    | nil => exact absurd h (pySplit_ne_nil sep t)
    | cons g gs => simp
  | cons c cs ih =>
    have hc : c ≠ sep := fun h => hp (h ▸ List.mem_cons_self c cs)
    have hcs : sep ∉ cs := fun h => hp (List.mem_cons_of_mem c h)
    simp only [List.cons_append]
    rw [pySplit, ih hcs]
    simp [hc]

/-- Splitting the separator-joined image of a non-empty list of
separator-free parts recovers exactly the parts. -/
theorem pySplit_joinSep (sep : Char) (parts : List PyStr) (hne : parts ≠ [])
    (hsep : ∀ p ∈ parts, sep ∉ p) :
    pySplit sep (joinSep sep parts) = parts := by
  induction parts with
  | nil => exact absurd rfl hne
  | cons p rest ih =>
    cases rest with
    | nil =>
      rw [joinSep]
      exact pySplit_no_sep sep p (hsep p (List.mem_cons_self p []))
    | cons q rest2 =>
      rw [joinSep]
      rw [pySplit_sep_append sep p _ (hsep p (List.mem_cons_self p (q :: rest2)))]
      rw [ih (by simp) (fun x hx => hsep x (List.mem_cons_of_mem p hx))]

/-- C4 counterexample: at a concrete file identifier, the scheme-name label
computed by countHits is the parsed fragment SCHEME and is not the
caller-supplied identifier itself, so countHits does parse the file path
rather than returning the caller-supplied opaque label. -/
theorem countHits_title_not_input :
    titleOf (("a.b.x/y/z/w/SCHEME/v.json").toList)
        = some (("SCHEME").toList) ∧
    titleOf (("a.b.x/y/z/w/SCHEME/v.json").toList)
        ≠ some (("a.b.x/y/z/w/SCHEME/v.json").toList) := by
  exact ⟨rfl, by decide⟩

/-- C4 amended: countHits derives the scheme-name label by parsing the file
identifier: for every identifier whose third period-separated field is a
slash-joined path, the returned label is the fifth slash-separated
component of that field (not the identifier itself); correspondingly every
successful countHits run on such an identifier returns that component as
its scheme name. -/
theorem countHits_title_parses (partsDot partsSlash : List PyStr)
    (name : PyStr) (records : List BlastRecord) (cutoff : ℚ)
    (hD : ∀ p ∈ partsDot, '.' ∉ p) (hS : ∀ p ∈ partsSlash, '/' ∉ p)
    (h2 : partsDot.get? 2 = some (joinSep '/' partsSlash))
    (h4 : partsSlash.get? 4 = some name) :
    titleOf (joinSep '.' partsDot) = some name ∧
    ∀ result, countHits (joinSep '.' partsDot) records cutoff
        = Except.ok result → result.1 = name := by
  have hneD : partsDot ≠ [] := by
    intro h
    rw [h] at h2
    exact Option.noConfusion h2
  have hneS : partsSlash ≠ [] := by
    intro h
    rw [h] at h4
    exact Option.noConfusion h4
  have htitle : titleOf (joinSep '.' partsDot) = some name := by
    rw [titleOf, pySplit_joinSep '.' partsDot hneD hD]
    simp only [h2]
    rw [pySplit_joinSep '/' partsSlash hneS hS]
    exact h4
  refine ⟨htitle, ?_⟩
  intro result h
  rw [countHits] at h
  simp only [htitle] at h
  cases hf : countHitsFold cutoff initTable records with
  | error e =>
    simp only [hf] at h
    exact Except.noConfusion h
  | ok tbl =>
    simp only [hf] at h
    rw [← Except.ok.inj h]

/-- Witness for the amended C4 at a concrete three-field identifier whose
third field is a five-component path. -/
theorem countHits_title_parses_witness :
    titleOf (joinSep '.'
        [("cons").toList, ("blastn").toList,
          joinSep '/' [("data").toList, ("out").toList, ("runs").toList,
            ("batch").toList, ("SCHEME").toList]]) =
      some (("SCHEME").toList) ∧
    ∀ result, countHits (joinSep '.'
        [("cons").toList, ("blastn").toList,
          joinSep '/' [("data").toList, ("out").toList, ("runs").toList,
            ("batch").toList, ("SCHEME").toList]]) [] 50
        = Except.ok result → result.1 = ("SCHEME").toList := by
  exact countHits_title_parses
    [("cons").toList, ("blastn").toList,
      joinSep '/' [("data").toList, ("out").toList, ("runs").toList,
        ("batch").toList, ("SCHEME").toList]]
    [("data").toList, ("out").toList, ("runs").toList, ("batch").toList,
      ("SCHEME").toList]
    (("SCHEME").toList) [] 50 (by decide) (by decide) rfl rfl

end RocAnalysis
